import Mathlib

/-!
# Verification of the hex-lattice Wave-Function-Collapse core

Shallow embedding of the repository's core components:

* `HexEntry.AddAdjacencies` — the per-rotation adjacency compiler
  (`src/unnamed/part_000`), embedded as `addAdjacencies`;
* `HexGrid` — the 3D hex lattice (`src/server/Utilities/HexGrid.ts`),
  embedded as `hexGridNew`, `setHex`, `loadWorldPos`;
* `Hex.GetHexList` — the tile registry listing
  (`src/server/Components/Hex.ts`), embedded as `getHexList`;
* `PriorityQueue` — the updatable binary heap
  (`src/server/Utilities/HexGrid.ts`), embedded below;
* the Wave-Function-Collapse solver loop, which is only a stub in the
  source (`HexGrid.Fill` carries a TODO and fills cells at random), is
  modelled from the specification.

Numbers follow the Luau semantics of the source: integer arithmetic uses
`Int` with floored `%` (Lean's `Int.emod` agrees with Lua's `%` for a
positive modulus), and geometry uses `ℚ` (the literals 0.5 and 0.75 are
exact, so no rounding is lost by the rational model).
-/

/-! ## Tile adjacency compiler (`HexEntry.AddAdjacencies`) -/

/-- A neighbor constraint attached to a side link, as extracted by
`HexEntry.GetNeighborValuesFromConstraint`: the neighbor prototype's name
(`neighborModel.Name`) and the neighbor's own side index
(`tonumber(neighborLink.Name)`). -/
structure NeighborRef where
  name : String
  side : Int
deriving DecidableEq, Repr

/-- One child of a prototype's `Links` model: the side label
(`tonumber(sideLink.Name)`) and the constraints found under its
attachment. -/
structure SideLink where
  side : Int
  constraints : List NeighborRef
deriving DecidableEq, Repr

/-- The six canonical rotations, in the order iterated by
`ConstructAllHexTransformations` and by the above/below tag loop. -/
def hexRotations : List Int := [0, 60, 120, 180, 240, 300]

/-- The tag emitted for a lateral constraint: the neighbor's name
concatenated with `(adjValue - neighborSide + 540) % 360`, where
`adjValue` is the rotated side index `(sideValue + rotation) % 360`
computed by the caller. -/
def lateralTag (adjValue : Int) (c : NeighborRef) : String :=
  c.name ++ toString ((adjValue - c.side + 540) % 360)

/-- The six tags emitted for one above/below constraint: the neighbor's
name paired with every orientation (`for orientation of [0..300]`). -/
def verticalTags (c : NeighborRef) : List String :=
  hexRotations.map (fun o => c.name ++ toString o)

/-- `result[i].push(tag)`: append `tag` to the `i`-th sublist. Indices
outside the list leave it unchanged (the compiler only ever uses indices
that exist, guarded by `addSideLink`). -/
def pushAt (res : List (List String)) (i : Nat) (tag : String) : List (List String) :=
  res.set i (res.getD i [] ++ [tag])

/-- Process one side link of `AddAdjacencies`. A side label that is a
multiple of 10 takes the lateral branch: the rotated side index
`adjValue = (sideValue + rotation) % 360` feeds the orientation formula,
while the push index is `sideValue / 60` (the unrotated index). A lateral
label that is not a multiple of 60, or whose index falls outside the
8-slot table, indexes the Luau array at a fractional or absent key and
crashes, modelled as `none`. Any other label takes the above/below
branch: index 6, or 7 when the label is exactly 1, receiving one tag per
orientation for each constraint. -/
def addSideLink (rotation : Int) (res : List (List String)) (l : SideLink) :
    Option (List (List String)) :=
  if l.side % 10 = 0 then
    let adjValue := (l.side + rotation) % 360
    let sideIndex := l.side / 60
    if l.side % 60 = 0 ∧ 0 ≤ sideIndex ∧ sideIndex < 8 then
      some (l.constraints.foldl
        (fun r c => pushAt r sideIndex.toNat (lateralTag adjValue c)) res)
    else
      none
  else
    let sideIndex : Nat := if l.side = 1 then 7 else 6
    some (l.constraints.foldl
      (fun r c => (verticalTags c).foldl (fun r2 t => pushAt r2 sideIndex t) r) res)

/-- `HexEntry.AddAdjacencies`: fold every side link of the prototype over
a fresh 8-slot table (`result` is initialized with 8 empty sublists). -/
def addAdjacencies (links : List SideLink) (rotation : Int) :
    Option (List (List String)) :=
  links.foldlM (addSideLink rotation) (List.replicate 8 [])

/-! ## Tile registry (`Hex.GetHexList`, `Hex.GetHex`) -/

/-- A registered tile: the component only exposes its instance name. -/
structure Hex where
  name : String
deriving DecidableEq, Repr

/-- `Hex.GetHexList(includeEmpty)`: walk `HEX_MAP` and keep every hex
satisfying `includeEmpty || hex.name !== "EmptyHex"`. The map is embedded
as an association list in iteration order. -/
def getHexList (hexMap : List (String × Hex)) (includeEmpty : Bool) : List Hex :=
  (hexMap.map Prod.snd).filter (fun h => includeEmpty || h.name ≠ "EmptyHex")

/-- `Hex.GetHex(label)`: lookup in `HEX_MAP`. -/
def getHex (hexMap : List (String × Hex)) (label : String) : Option Hex :=
  (hexMap.find? (fun e => e.1 = label)).map Prod.snd

/-! ## The hex lattice (`HexGrid`) -/

/-- The `HexGrid` state: sizes plus the `grid` and `superpositions`
arrays. Grid cells hold `Option Hex` because `DEFAULT_HEX_ID` is declared
but never assigned, so `Hex.GetHex(HexGrid.DEFAULT_HEX_ID)` can produce
no hex. -/
structure HexGrid where
  x_size : Int
  y_size : Int
  z_size : Int
  grid : List (List (List (Option Hex)))
  superpositions : List (List (List (List Hex)))
deriving Repr

/-- The `HexGrid` constructor. It performs no validation whatsoever: the
three nested `for (let i = 0; i < size; i++)` loops run `max size 0`
times each, so a negative size yields an empty dimension and an odd size
is accepted unchanged. Every superposition cell is seeded with
`Hex.GetHexList()` (with its default `includeEmpty = false`), and every
grid cell with the `DEFAULT_HEX_ID` lookup. -/
def hexGridNew (hexMap : List (String × Hex)) (defaultHexId : Option String)
    (x y z : Int) : HexGrid :=
  let defaultHex : Option Hex := defaultHexId.bind (getHex hexMap)
  { x_size := x
    y_size := y
    z_size := z
    grid := List.replicate x.toNat
      (List.replicate y.toNat (List.replicate z.toNat defaultHex))
    superpositions := List.replicate x.toNat
      (List.replicate y.toNat (List.replicate z.toNat (getHexList hexMap false))) }

/-- The three assertions guarding `HexGrid.SetHex`: only the upper bounds
`x < x_size`, `y < y_size`, `z < z_size` are tested. -/
def setHexAsserts (g : HexGrid) (x y z : Int) : Bool :=
  decide (x < g.x_size) && decide (y < g.y_size) && decide (z < g.z_size)

/-- Apply `f` to the entry of `l` at signed index `i`; an index outside
the list leaves it unchanged (a Luau write to a key outside the array
part of the table, which the array view never observes). -/
def modifyAtInt {α : Type} (f : α → α) : Int → List α → List α
  | _, [] => []
  | i, a :: as =>
    if i = 0 then f a :: as
    else if i < 0 then a :: as
    else a :: modifyAtInt f (i - 1) as

/-- `HexGrid.SetHex`: run the three assertions, then store the hex at
`grid[x][y][z]`. An assertion failure is an error (`none`). -/
def setHex (g : HexGrid) (x y z : Int) (h : Hex) : Option HexGrid :=
  if setHexAsserts g x y z then
    some { g with
      grid := modifyAtInt
        (fun plane => modifyAtInt
          (fun row => modifyAtInt (fun _ => some h) z row) y plane) x g.grid }
  else
    none

/-- The axial-to-world transform computed inside `HexGrid.Load` for grid
indices `(i, j, k)`: axial coordinates are `q = i`, `r = k`, the layer is
`j`, and the geometry parameters are the sample hex bounding box
(`hexLength = HEX_SIZE.X`, `hexWidth = HEX_SIZE.Z`,
`hexHeight = HEX_SIZE.Y`). -/
def loadWorldPos (i j k : Int) (hexLength hexWidth hexHeight : ℚ) : ℚ × ℚ × ℚ :=
  let q : ℚ := (i : ℚ)
  let r : ℚ := (k : ℚ)
  let world_x := (r + 0.5 * q) * hexLength
  let world_y := (j : ℚ) * hexHeight
  let world_z := 0.75 * q * hexWidth
  (world_x, world_y, world_z)

/-! ## The updatable priority queue (`PriorityQueue`)

The heap array is embedded as a `List`; the sift loops are embedded with
an explicit iteration budget (`fuel`) so that every operation is a
structurally recursive, executable function. `bubbleUp` strictly
decreases the index, so `idx` iterations always suffice; `sinkDown`
strictly increases it below the fixed length, so `length` iterations
always suffice — the budgets are never exhausted before the loop's own
exit condition fires. -/

/-- `PriorityQueueElement`: a generic item paired with its priority. The
source's priorities are Luau numbers used only through the subtraction
comparator `a.priority - b.priority`; integer priorities compare
exactly the same way. -/
structure PriorityQueueElement (T : Type) where
  item : T
  priority : Int
deriving DecidableEq, Repr

/-- The priority stored at index `i`, with an irrelevant default for
absent indices (the source never reads past the array). -/
def prioAt {T : Type} (l : List (PriorityQueueElement T)) (i : Nat) : Int :=
  match l[i]? with
  | some e => e.priority
  | none => 0

/-- The two-write swap `heap[i] = heap[j]; heap[j] = heap[i]` performed
by both sift loops (the source keeps the moving element in a local, so
the pair of writes is an exchange). -/
def lswap {T : Type} (l : List (PriorityQueueElement T)) (i j : Nat) :
    List (PriorityQueueElement T) :=
  match l[i]?, l[j]? with
  | some a, some b => (l.set i b).set j a
  | _, _ => l

/-- `PriorityQueue._bubbleUp`: while the index is positive and the
element does not compare strictly greater than its parent
(`compare(element, parent) > 0` is the break condition), swap with the
parent at `(idx + 1) / 2 - 1` and continue there. -/
def bubbleUpF {T : Type} : Nat → List (PriorityQueueElement T) → Nat →
    List (PriorityQueueElement T)
  | 0, l, _ => l
  | _ + 1, l, 0 => l
  | fuel + 1, l, idx + 1 =>
    let parentIdx := (idx + 1 + 1) / 2 - 1
    if prioAt l parentIdx < prioAt l (idx + 1) then l
    else bubbleUpF fuel (lswap l (idx + 1) parentIdx) parentIdx

/-- `_bubbleUp` entry point: the loop runs at most `idx` iterations. -/
def bubbleUp {T : Type} (l : List (PriorityQueueElement T)) (idx : Nat) :
    List (PriorityQueueElement T) :=
  bubbleUpF idx l idx

/-- The child chosen by one `_sinkDown` iteration: `none` when no swap
occurs (the loop breaks), otherwise the index swapped with. The left
child at `2*idx + 1` is chosen when it beats the element, unless the
right child at `2*idx + 2` exists, beats the element, and either no left
swap was pending or the right child beats the left. -/
def sinkSwapIdx {T : Type} (l : List (PriorityQueueElement T)) (idx : Nat) :
    Option Nat :=
  let lChildIdx := 2 * idx + 1
  let rChildIdx := 2 * idx + 2
  if lChildIdx < l.length then
    let s1 : Option Nat :=
      if prioAt l lChildIdx < prioAt l idx then some lChildIdx else none
    if rChildIdx < l.length ∧ (s1 = none ∨ prioAt l rChildIdx < prioAt l lChildIdx) ∧
        prioAt l rChildIdx < prioAt l idx then
      some rChildIdx
    else s1
  else none

/-- `PriorityQueue._sinkDown`: repeatedly swap with the chosen child
until no child compares strictly lower. -/
def sinkDownF {T : Type} : Nat → List (PriorityQueueElement T) → Nat →
    List (PriorityQueueElement T)
  | 0, l, _ => l
  | fuel + 1, l, idx =>
    match sinkSwapIdx l idx with
    | none => l
    | some j => sinkDownF fuel (lswap l idx j) j

/-- `_sinkDown` entry point: the loop runs at most `length` iterations. -/
def sinkDown {T : Type} (l : List (PriorityQueueElement T)) (idx : Nat) :
    List (PriorityQueueElement T) :=
  sinkDownF l.length l idx

/-- `PriorityQueue`: the class holds only the backing heap array. -/
structure PriorityQueue (T : Type) where
  heap : List (PriorityQueueElement T)
deriving Repr

namespace PriorityQueue

/-- The `PriorityQueue` constructor: an empty heap. -/
def mkEmpty (T : Type) : PriorityQueue T := ⟨[]⟩

/-- `getCount`: the number of elements. -/
def getCount {T : Type} (q : PriorityQueue T) : Nat := q.heap.length

/-- `insert`: append a fresh element and bubble it up from the last
index. -/
def insert {T : Type} (q : PriorityQueue T) (item : T) (priority : Int) :
    PriorityQueue T :=
  let h := q.heap ++ [⟨item, priority⟩]
  ⟨bubbleUp h (h.length - 1)⟩

/-- `_findElementIndex`: linear scan for the first element whose item is
the argument (`===` on the stored item); `-1`, embedded as `none`, when
absent. -/
def findElementIndex {T : Type} [DecidableEq T]
    (l : List (PriorityQueueElement T)) (item : T) : Option Nat :=
  l.findIdx? (fun e => e.item = item)

/-- `pop`, kept at the element level so the removed priority is
observable: return the root, move the last element to the root and sink
it. `none` on an empty heap (the source returns `undefined`). -/
def popElem {T : Type} (q : PriorityQueue T) :
    Option (PriorityQueueElement T × PriorityQueue T) :=
  match q.heap with
  | [] => none
  | e :: rest =>
    let lastE := (e :: rest).getLast (by simp)
    let dropped := (e :: rest).dropLast
    if 0 < dropped.length then
      some (e, ⟨sinkDown (dropped.set 0 lastE) 0⟩)
    else
      some (e, ⟨[]⟩)

/-- `pop` as the source exposes it: only the item. -/
def pop {T : Type} (q : PriorityQueue T) : Option (T × PriorityQueue T) :=
  q.popElem.map (fun p => (p.1.item, p.2))

/-- `peek`: the root item without mutation; `none` when empty. -/
def peek {T : Type} (q : PriorityQueue T) : Option T :=
  q.heap.head?.map (fun e => e.item)

/-- `updatePriority`: locate the item (no-op when absent), overwrite its
priority, then bubble up when the priority strictly decreased and sink
down otherwise. -/
def updatePriority {T : Type} [DecidableEq T] (q : PriorityQueue T)
    (item : T) (newPriority : Int) : PriorityQueue T :=
  match findElementIndex q.heap item with
  | none => q
  | some idx =>
    match q.heap[idx]? with
    | none => q
    | some e =>
      let h := q.heap.set idx ⟨e.item, newPriority⟩
      if newPriority < e.priority then ⟨bubbleUp h idx⟩ else ⟨sinkDown h idx⟩

/-- Drain the queue by popping until empty (element level). -/
def popAllF {T : Type} : Nat → PriorityQueue T → List (PriorityQueueElement T)
  | 0, _ => []
  | fuel + 1, q =>
    match q.popElem with
    | none => []
    | some (e, q2) => e :: popAllF fuel q2

/-- Drain the queue by popping until empty; each pop removes exactly one
element, so `length` pops suffice. -/
def popAllElems {T : Type} (q : PriorityQueue T) :
    List (PriorityQueueElement T) :=
  popAllF q.heap.length q

/-- The items of a full drain, in pop order. -/
def popAllItems {T : Type} (q : PriorityQueue T) : List T :=
  q.popAllElems.map (fun e => e.item)

/-- Insert a batch of (item, priority) pairs, in order, into a fresh
queue. -/
def insertAll {T : Type} (xs : List (T × Int)) : PriorityQueue T :=
  xs.foldl (fun q p => q.insert p.1 p.2) (mkEmpty T)

end PriorityQueue

/-- The binary min-heap ordering invariant of the backing list: every
element from index 1 up is at least its parent at `(j + 1) / 2 - 1`. -/
def heapInv {T : Type} (l : List (PriorityQueueElement T)) : Prop :=
  ∀ j < l.length, 0 < j → prioAt l ((j + 1) / 2 - 1) ≤ prioAt l j

instance {T : Type} (l : List (PriorityQueueElement T)) :
    Decidable (heapInv l) := by
  unfold heapInv
  infer_instance

/-- The state preserved by the `_bubbleUp` loop: every parent/child edge
is ordered except possibly the edge into `idx`, and the element above the
gap already fits below every child of the gap (so that moving it down
into the gap cannot break the edges leaving the gap). -/
def heapExceptUp {T : Type} (l : List (PriorityQueueElement T)) (idx : Nat) : Prop :=
  (∀ j, j < l.length → 0 < j → j ≠ idx →
    prioAt l ((j + 1) / 2 - 1) ≤ prioAt l j) ∧
  (0 < idx → ∀ c, c < l.length → (c + 1) / 2 - 1 = idx →
    prioAt l ((idx + 1) / 2 - 1) ≤ prioAt l c)

/-- The state preserved by the `_sinkDown` loop: every parent/child edge
is ordered except possibly the edges leaving `idx`, and the element above
`idx` already fits below every child of `idx` (so that moving a child up
into `idx` cannot break the edge entering `idx`). -/
def heapExceptDown {T : Type} (l : List (PriorityQueueElement T)) (idx : Nat) : Prop :=
  (∀ j, j < l.length → 0 < j → (j + 1) / 2 - 1 ≠ idx →
    prioAt l ((j + 1) / 2 - 1) ≤ prioAt l j) ∧
  (0 < idx → ∀ c, c < l.length → (c + 1) / 2 - 1 = idx →
    prioAt l ((idx + 1) / 2 - 1) ≤ prioAt l c)

/-! ## The Wave-Function-Collapse solver, modelled from the specification

The repository's collapse loop is a stub: `HexGrid.Fill` carries
`TODO: Implement Wave Function Collapse` and assigns a random hex to
every cell with no constraint checking, and no `Collapsed`/`Contradicted`
state machine exists anywhere in the source. The definitions below are
therefore modelled from the specification: cells indexed by an abstract
finite coordinate type, an adjacency relation giving the facing direction
slot, candidate intersection against the resolved neighbor's
compatibility list, and termination states. The pop order of the
priority heap is abstracted into an explicit processing list, which
covers every order the heap could produce. -/

/-- Modelled from the spec: a cell is either an unresolved superposition
(a candidate list) or terminally resolved to one variant. -/
inductive CellState (V : Type) where
  | superposition (cands : List V)
  | resolved (v : V)
deriving DecidableEq, Repr

/-- Modelled from the spec: whether a cell has been resolved. -/
def isResolved {V : Type} : CellState V → Bool
  | .resolved _ => true
  | .superposition _ => false

/-- Modelled from the spec (§4.4 step 4, missing from the source):
after `a` resolves to `v`, every adjacent cell still in superposition has
its candidate list intersected with `v`'s compatibility list for the
direction facing that neighbor; resolved cells and non-neighbors are
untouched. -/
def propagate {C V : Type} (tagOf : V → String)
    (compat : V → Fin 8 → List String) (adj : C → C → Option (Fin 8))
    (a : C) (v : V) (cells : C → CellState V) : C → CellState V :=
  fun c =>
    match adj a c, cells c with
    | some d, .superposition cands =>
      .superposition (cands.filter (fun w => (compat v d).contains (tagOf w)))
    | _, _ => cells c

/-- Modelled from the spec (§4.4 steps 1–4, missing from the source):
process one popped cell. A cell already resolved is skipped; an empty
candidate set is the contradiction signal (`none`); otherwise one
candidate is chosen by the picker, the cell is resolved to it, and the
choice is propagated to the neighbors. -/
def solverStep {C V : Type} [DecidableEq C] (tagOf : V → String)
    (compat : V → Fin 8 → List String) (adj : C → C → Option (Fin 8))
    (pick : C → List V → V) (cells : C → CellState V) (c : C) :
    Option (C → CellState V) :=
  match cells c with
  | .resolved _ => some cells
  | .superposition [] => none
  | .superposition (v0 :: rest) =>
    let v := pick c (v0 :: rest)
    some (propagate tagOf compat adj c v
      (fun x => if x = c then .resolved v else cells x))

/-- Modelled from the spec: the solver loop, processing popped cells in
an arbitrary order until exhaustion or contradiction. -/
def solverRun {C V : Type} [DecidableEq C] (tagOf : V → String)
    (compat : V → Fin 8 → List String) (adj : C → C → Option (Fin 8))
    (pick : C → List V → V) :
    List C → (C → CellState V) → Option (C → CellState V)
  | [], cells => some cells
  | c :: order, cells =>
    match solverStep tagOf compat adj pick cells c with
    | none => none
    | some cells2 => solverRun tagOf compat adj pick order cells2

/-- Modelled from the spec: the two terminal solver states. -/
inductive SolveResult (C V : Type) where
  | Collapsed (final : C → CellState V)
  | Contradicted

/-- Modelled from the spec (§4.4 Finish, missing from the source): the
fill operation is `Collapsed` when the loop ran to exhaustion and no
processed cell is left unresolved, `Contradicted` otherwise. -/
def solverFill {C V : Type} [DecidableEq C] (tagOf : V → String)
    (compat : V → Fin 8 → List String) (adj : C → C → Option (Fin 8))
    (pick : C → List V → V) (order : List C) (init : C → CellState V) :
    SolveResult C V :=
  match solverRun tagOf compat adj pick order init with
  | none => .Contradicted
  | some final =>
    if order.all (fun c => isResolved (final c)) then .Collapsed final
    else .Contradicted

/-- The cell assignment carried by a `Collapsed` result. -/
def finalOf {C V : Type} (res : SolveResult C V) (dflt : C → CellState V) :
    C → CellState V :=
  match res with
  | .Collapsed final => final
  | .Contradicted => dflt

/-- The invariant maintained by the modelled solver: every
resolved/resolved adjacent pair is compatible in at least one of its two
directions, and the candidates of a superposition next to a resolved cell
all lie in the resolved cell's facing compatibility list. -/
def SolverInv {C V : Type} (tagOf : V → String)
    (compat : V → Fin 8 → List String) (adj : C → C → Option (Fin 8))
    (cells : C → CellState V) : Prop :=
  (∀ a b da db u v, adj a b = some da → adj b a = some db →
    cells a = .resolved u → cells b = .resolved v →
    (compat u da).contains (tagOf v) = true ∨
    (compat v db).contains (tagOf u) = true) ∧
  (∀ a b da u cands, adj a b = some da →
    cells a = .resolved u → cells b = .superposition cands →
    ∀ w ∈ cands, (compat u da).contains (tagOf w) = true)

/-! ### A concrete two-cell instance of the modelled solver

Two mutually adjacent cells; variant 0 (tag `U0`) lists tag `V0` as a
compatible neighbor in direction 0, variant 1 (tag `V0`) lists nothing at
all. -/

/-- Tags of the two concrete variants. -/
def exTag : Fin 2 → String
  | 0 => "U0"
  | 1 => "V0"

/-- Compatibility lists of the two concrete variants. -/
def exCompat : Fin 2 → Fin 8 → List String
  | 0, 0 => ["V0"]
  | _, _ => []

/-- The two cells face each other through direction slots 0 and 3. -/
def exAdj : Fin 2 → Fin 2 → Option (Fin 8)
  | 0, 1 => some 0
  | 1, 0 => some 3
  | _, _ => none

/-- The concrete picker: the first remaining candidate. -/
def exPick : Fin 2 → List (Fin 2) → Fin 2 :=
  fun _ l => l.headD 0

/-- Initial superpositions: cell 0 can only become variant 0, cell 1
only variant 1. -/
def exInit : Fin 2 → CellState (Fin 2)
  | 0 => .superposition [0]
  | 1 => .superposition [1]

/-- Fallback assignment for reading a `Collapsed` result. -/
def exDflt : Fin 2 → CellState (Fin 2) :=
  fun _ => .superposition []

/-! ## Theorems about the adjacency compiler -/

/-- `pushAt` never changes the number of direction slots. -/
theorem pushAt_length (res : List (List String)) (i : Nat) (tag : String) :
    (pushAt res i tag).length = res.length := by
  simp [pushAt]

/-- A fold of length-preserving updates preserves the slot count. -/
theorem foldl_length_eq {α : Type} (f : List (List String) → α → List (List String))
    (hf : ∀ r a, (f r a).length = r.length) :
    ∀ (as : List α) (r : List (List String)), (as.foldl f r).length = r.length := by
  intro as
  induction as with
  | nil => intro r; rfl
  | cons a as ih => intro r; rw [List.foldl_cons, ih, hf]

/-- `addSideLink` preserves the slot count whenever it succeeds. -/
theorem addSideLink_length {rotation : Int} {res out : List (List String)}
    {l : SideLink} (h : addSideLink rotation res l = some out) :
    out.length = res.length := by
  unfold addSideLink at h
  dsimp only at h
  split_ifs at h with h10 hguard hside
  all_goals
    first
      | exact Option.noConfusion h
      | · have heq := Option.some.inj h
          subst heq
          first
            | exact foldl_length_eq _ (fun r c => pushAt_length r _ _)
                l.constraints res
            | exact foldl_length_eq _
                (fun r c => foldl_length_eq _ (fun r2 t => pushAt_length r2 _ _) _ r)
                l.constraints res

/-- Successful compilation of any link list keeps the slot count of the
initial table. -/
theorem foldlM_addSideLink_length {rotation : Int} :
    ∀ (links : List SideLink) (init out : List (List String)),
      links.foldlM (addSideLink rotation) init = some out →
      out.length = init.length := by
  intro links
  induction links with
  | nil => intro init out h; cases h; rfl
  | cons l ls ih =>
    intro init out h
    rw [List.foldlM_cons] at h
    cases hs : addSideLink rotation init l with
    | none => rw [hs] at h; cases h
    | some mid =>
      rw [hs] at h
      simp only [Option.bind_eq_bind, Option.some_bind] at h
      rw [ih mid out h]
      exact addSideLink_length hs

/-- C4. For every prototype and every rotation, a successfully compiled
adjacency table has exactly 8 direction entries (6 lateral plus Above and
Below), each a possibly empty list — never fewer or more. -/
theorem addAdjacencies_eight_slots (links : List SideLink) (rotation : Int)
    (out : List (List String)) (h : addAdjacencies links rotation = some out) :
    out.length = 8 := by
  have := foldlM_addSideLink_length links (List.replicate 8 []) out h
  simpa using this

/-- Witness for C4 at a concrete prototype: one lateral constraint on
side 0 and one above constraint, compiled at rotation 0, yields a table
of exactly 8 entries. -/
theorem addAdjacencies_eight_slots_witness :
    addAdjacencies [⟨0, [⟨"B", 180⟩]⟩, ⟨1, [⟨"C", 0⟩]⟩] 0 =
      some [["B0"], [], [], [], [], [], [],
        ["C0", "C60", "C120", "C180", "C240", "C300"]] ∧
    ([["B0"], [], [], [], [], [], [],
        ["C0", "C60", "C120", "C180", "C240", "C300"]] :
      List (List String)).length = 8 :=
  ⟨by decide, addAdjacencies_eight_slots [⟨0, [⟨"B", 180⟩]⟩, ⟨1, [⟨"C", 0⟩]⟩] 0 _
    (by decide)⟩

/-- A slot of the fresh 8-slot table is empty. -/
theorem getD_replicate_nil (n i : Nat) :
    (List.replicate n ([] : List String)).getD i [] = [] := by
  rw [List.getD_eq_getElem?_getD, List.getElem?_replicate]
  split <;> rfl

/-- Folding the lateral pushes of one side appends exactly the mapped
tags to the targeted slot. -/
theorem foldl_pushAt_getD (f : NeighborRef → String) (i : Nat) :
    ∀ (cs : List NeighborRef) (res : List (List String)), i < res.length →
      (cs.foldl (fun r c => pushAt r i (f c)) res).getD i [] =
        res.getD i [] ++ cs.map f := by
  intro cs
  induction cs with
  | nil => intro res _; simp
  | cons c cs ih =>
    intro res hi
    rw [List.foldl_cons, ih _ (by simpa [pushAt_length] using hi)]
    simp only [pushAt, List.map_cons]
    rw [List.getD_eq_getElem?_getD, List.getElem?_set_self (by exact hi)]
    simp [List.getD_eq_getElem?_getD]

/-- C1. For every lateral side constraint compiled at rotation `r`, the
emitted neighbor tag is the neighbor prototype's name concatenated with
`(rotatedSideIndex - neighborSideIndex + 540) % 360`, where
`rotatedSideIndex = (sideLabel + r) % 360`: compiling a prototype whose
side `s` declares the constraint list `cs` emits, into the table slot the
code targets, exactly the tags given by that formula, in declaration
order. -/
theorem lateral_tag_formula (s r : Int) (cs : List NeighborRef)
    (h60 : s % 60 = 0) (h0 : 0 ≤ s / 60) (h8 : s / 60 < 8) :
    ∃ out, addAdjacencies [⟨s, cs⟩] r = some out ∧
      out.getD (s / 60).toNat [] =
        cs.map (fun c => c.name ++ toString (((s + r) % 360 - c.side + 540) % 360)) := by
  have h10 : s % 10 = 0 := by omega
  have hstep : addAdjacencies [⟨s, cs⟩] r = some (cs.foldl
      (fun acc c => pushAt acc (s / 60).toNat (lateralTag ((s + r) % 360) c))
      (List.replicate 8 [])) := by
    unfold addAdjacencies
    rw [List.foldlM_cons]
    unfold addSideLink
    rw [if_pos h10, if_pos ⟨h60, h0, h8⟩]
    rfl
  refine ⟨_, hstep, ?_⟩
  have hidx : (s / 60).toNat < (List.replicate 8 ([] : List String)).length := by
    simp only [List.length_replicate]
    omega
  rw [foldl_pushAt_getD _ _ cs (List.replicate 8 []) hidx]
  rw [getD_replicate_nil, List.nil_append]
  rfl

/-- Witness for C1, the spec's worked example: prototype `A` whose side 0
names `B`'s side 180, compiled at rotation 0, emits exactly the tag
`B0`. -/
theorem lateral_tag_formula_witness :
    ∃ out, addAdjacencies [⟨0, [⟨"B", 180⟩]⟩] 0 = some out ∧
      out.getD 0 [] = ["B0"] := by
  obtain ⟨out, h1, h2⟩ :=
    lateral_tag_formula 0 0 [⟨"B", 180⟩] (by decide) (by decide) (by decide)
  exact ⟨out, h1, h2.trans (by decide)⟩

/-- C2 (divergence record). A prototype whose side 0 carries one
constraint naming `B`'s side 180, compiled at rotation 60, emits its tag
into slot 0 — the unrotated index `sideValue / 60` — even though the
rotated side index `(0 + 60) % 360` maps to slot 1. The function's own
documentation says the rotation is accounted for "to rotate both the
entries and adjacencies", and the rotated index `adjValue` is computed,
but only the orientation suffix uses it; the push index does not. -/
theorem lateral_push_ignores_rotation :
    addAdjacencies [⟨0, [⟨"B", 180⟩]⟩] 60 =
      some [["B60"], [], [], [], [], [], [], []] ∧
    (((0 : Int) + 60) % 360) / 60 = 1 := by
  constructor
  · decide
  · decide

/-! ## Theorems about the lattice -/

/-- C9. The axial-to-world transform of `HexGrid.Load` computes
`worldX = (r + 0.5 q) · L`, `worldY = layer · H`, `worldZ = 0.75 q · W`
for `q = i`, `r = k`, `layer = j`, where `L`, `W`, `H` are the sample
tile's lateral length, width, and vertical height. The embedding is a
pure function of its arguments, so equal inputs give equal outputs. -/
theorem loadWorldPos_formula (i j k : Int) (L W H : ℚ) :
    loadWorldPos i j k L W H =
      (((k : ℚ) + (1 / 2) * (i : ℚ)) * L, (j : ℚ) * H, (3 / 4) * (i : ℚ) * W) := by
  unfold loadWorldPos
  norm_num

/-- C7 (counterexample). `SetHex` with the out-of-range layer `-1` on a
2×2×2 grid raises no range error: the assertions only test the upper
bounds, so the call succeeds (and the write lands outside the array
part, silently changing nothing). This refutes the claim that every
out-of-range component — negative ones included — fails the
operation. -/
theorem setHex_accepts_negative_layer :
    (setHex (hexGridNew [("Grass", ⟨"Grass"⟩)] none 2 2 2) 0 0 (-1)
      ⟨"Grass"⟩).isSome = true ∧
    setHexAsserts (hexGridNew [("Grass", ⟨"Grass"⟩)] none 2 2 2) 0 0 (-1) = true := by
  constructor
  · decide
  · decide

/-- C7 (amended). `SetHex` fails with a range error exactly when one of
its three assertions fails, and those assertions test only the upper
bounds `x < x_size`, `y < y_size`, `z < z_size`: a negative component is
never checked and never causes the range error. -/
theorem setHex_isSome_iff_upper_bounds (g : HexGrid) (x y z : Int) (h : Hex) :
    (setHex g x y z h).isSome = true ↔
      (x < g.x_size ∧ y < g.y_size ∧ z < g.z_size) := by
  unfold setHex setHexAsserts
  by_cases hx : x < g.x_size <;> by_cases hy : y < g.y_size <;>
    by_cases hz : z < g.z_size <;>
    simp [hx, hy, hz]

/-- C8 (counterexample). Allocating with the odd radius 3 does not fail:
a lattice with 3 superposition columns is created, and a negative size is
likewise accepted, recording `x_size = -2` with an empty grid. This
refutes the claim that odd or negative radii raise a range error and
create no lattice. -/
theorem hexGridNew_accepts_odd_and_negative :
    (hexGridNew [("Grass", ⟨"Grass"⟩)] none 3 1 3).superpositions.length = 3 ∧
    (hexGridNew [("Grass", ⟨"Grass"⟩)] none (-2) 1 1).x_size = -2 ∧
    (hexGridNew [("Grass", ⟨"Grass"⟩)] none (-2) 1 1).superpositions.length = 0 := by
  refine ⟨?_, ?_, ?_⟩ <;> decide

/-- C8 (amended). The constructor validates nothing: for every requested
size triple — odd and negative values included — a lattice is created,
with `max x 0` columns, each of `max y 0` rows of `max z 0` cells. -/
theorem hexGridNew_accepts_any_size (hexMap : List (String × Hex))
    (did : Option String) (x y z : Int) :
    (hexGridNew hexMap did x y z).superpositions.length = x.toNat ∧
    (∀ plane ∈ (hexGridNew hexMap did x y z).superpositions,
      plane.length = y.toNat ∧ ∀ row ∈ plane, row.length = z.toNat) := by
  constructor
  · simp [hexGridNew]
  · intro plane hplane
    have hp := List.eq_of_mem_replicate hplane
    subst hp
    refine ⟨by simp, ?_⟩
    intro row hrow
    have hr := List.eq_of_mem_replicate hrow
    subst hr
    simp

/-- Witness for C8 (amended) at the odd radius 3: the lattice exists and
its concrete first column has 1 row of 3 cells. -/
theorem hexGridNew_accepts_any_size_witness :
    (hexGridNew [("Grass", ⟨"Grass"⟩)] none 3 1 3).superpositions.length = 3 ∧
    (List.replicate 1 (List.replicate 3 (getHexList [("Grass", ⟨"Grass"⟩)] false))).length = 1 := by
  constructor
  · exact (hexGridNew_accepts_any_size [("Grass", ⟨"Grass"⟩)] none 3 1 3).1.trans
      (by decide)
  · exact ((hexGridNew_accepts_any_size [("Grass", ⟨"Grass"⟩)] none 3 1 3).2
      (List.replicate 1 (List.replicate 3 (getHexList [("Grass", ⟨"Grass"⟩)] false)))
      (by decide)).1.trans (by decide)

/-- C10. `GetHexList` with its default argument (`includeEmpty = false`)
returns only hexes whose name is not `"EmptyHex"`, and consequently every
superposition cell seeded by the `HexGrid` constructor contains no
`"EmptyHex"` tile, whatever the registry holds. -/
theorem getHexList_excludes_empty (hexMap : List (String × Hex)) :
    (∀ h ∈ getHexList hexMap false, h.name ≠ "EmptyHex") ∧
    ∀ (did : Option String) (x y z : Int),
      ∀ plane ∈ (hexGridNew hexMap did x y z).superpositions,
        ∀ row ∈ plane, ∀ cell ∈ row, ∀ h ∈ cell, h.name ≠ "EmptyHex" := by
  have base : ∀ h ∈ getHexList hexMap false, h.name ≠ "EmptyHex" := by
    intro h hmem
    have := (List.mem_filter.mp hmem).2
    simpa using this
  refine ⟨base, ?_⟩
  intro did x y z plane hplane row hrow cell hcell hx hmem
  have hp := List.eq_of_mem_replicate hplane
  subst hp
  have hr := List.eq_of_mem_replicate hrow
  subst hr
  have hc := List.eq_of_mem_replicate hcell
  subst hc
  exact base hx hmem


/-- Witness for C10: a registry that does contain the `EmptyHex` tile;
the tile named `Grass` drawn from a constructed cell is not
`EmptyHex`. -/
theorem getHexList_excludes_empty_witness :
    (⟨"Grass"⟩ : Hex).name ≠ "EmptyHex" :=
  ((getHexList_excludes_empty
      [("EmptyHex", ⟨"EmptyHex"⟩), ("Grass", ⟨"Grass"⟩)]).2 none 1 1 1
    (List.replicate 1 (List.replicate 1
      (getHexList [("EmptyHex", ⟨"EmptyHex"⟩), ("Grass", ⟨"Grass"⟩)] false)))
    (by decide)
    (List.replicate 1
      (getHexList [("EmptyHex", ⟨"EmptyHex"⟩), ("Grass", ⟨"Grass"⟩)] false))
    (by decide)
    (getHexList [("EmptyHex", ⟨"EmptyHex"⟩), ("Grass", ⟨"Grass"⟩)] false)
    (by decide)
    ⟨"Grass"⟩
    (by decide))

/-! ## Theorems about the priority queue -/

section HeapLemmas

variable {T : Type}

theorem lswap_length (l : List (PriorityQueueElement T)) (i j : Nat) :
    (lswap l i j).length = l.length := by
  unfold lswap
  cases hi : l[i]? <;> cases hj : l[j]? <;> simp

theorem bubbleUpF_length :
    ∀ (fuel : Nat) (l : List (PriorityQueueElement T)) (idx : Nat),
      (bubbleUpF fuel l idx).length = l.length
  | 0, _, _ => rfl
  | _ + 1, _, 0 => rfl
  | fuel + 1, l, idx + 1 => by
    unfold bubbleUpF
    dsimp only
    split
    · rfl
    · rw [bubbleUpF_length fuel, lswap_length]

theorem sinkDownF_length :
    ∀ (fuel : Nat) (l : List (PriorityQueueElement T)) (idx : Nat),
      (sinkDownF fuel l idx).length = l.length
  | 0, _, _ => rfl
  | fuel + 1, l, idx => by
    unfold sinkDownF
    cases h : sinkSwapIdx l idx with
    | none => rfl
    | some j => rw [sinkDownF_length fuel, lswap_length]

theorem prioAt_eq_getElem (l : List (PriorityQueueElement T)) (i : Nat)
    (h : i < l.length) : prioAt l i = (l.get ⟨i, h⟩).priority := by
  unfold prioAt
  rw [List.getElem?_eq_getElem h]
  rfl

/-- A list is unchanged by writing back the entry it already holds. -/
theorem set_self_of_getElem {α : Type} (l : List α) (i : Nat) (a : α)
    (h : l[i]? = some a) : l.set i a = l := by
  apply List.ext_getElem?
  intro n
  by_cases hn : n = i
  · subst hn
    rw [List.getElem?_set_self (by
      rcases List.getElem?_eq_some_iff.mp h with ⟨hlt, _⟩
      exact hlt), h]
  · rw [List.getElem?_set_ne (fun he => hn he.symm)]

/-- Reading the swapped list: position `j` now holds the old entry of
`i`, position `i` the old entry of `j`, all others are unchanged. -/
theorem prioAt_lswap (l : List (PriorityQueueElement T)) {i j : Nat}
    (hi : i < l.length) (hj : j < l.length) (x : Nat) :
    prioAt (lswap l i j) x =
      if x = j then prioAt l i else if x = i then prioAt l j
      else prioAt l x := by
  unfold lswap
  rw [List.getElem?_eq_getElem hi, List.getElem?_eq_getElem hj]
  unfold prioAt
  by_cases hxj : x = j
  · subst hxj
    rw [List.getElem?_set_self (by simpa using hj), if_pos rfl,
      List.getElem?_eq_getElem hi]
  · rw [List.getElem?_set_ne (fun he => hxj he.symm), if_neg hxj]
    by_cases hxi : x = i
    · subst hxi
      rw [List.getElem?_set_self hi, if_pos rfl, List.getElem?_eq_getElem hj]
    · rw [List.getElem?_set_ne (fun he => hxi he.symm), if_neg hxi]

/-- Transposing the head of a list with a written position is a
permutation. -/
theorem cons_set_perm {α : Type} :
    ∀ (l : List α) (k : Nat) (a b : α), l[k]? = some b →
      (b :: l.set k a).Perm (a :: l)
  | [], k, a, b, h => by simp at h
  | c :: t, 0, a, b, h => by
    simp only [List.getElem?_cons_zero, Option.some.injEq] at h
    subst h
    simpa using List.Perm.swap a c t
  | c :: t, k + 1, a, b, h => by
    simp only [List.getElem?_cons_succ] at h
    simp only [List.set_cons_succ]
    exact (List.Perm.swap c b _).trans
      (((cons_set_perm t k a b h).cons c).trans (List.Perm.swap a c t))

/-- The two-position exchange is a permutation. -/
theorem swap_set_perm {α : Type} :
    ∀ (l : List α) (i j : Nat) (a b : α), l[i]? = some a → l[j]? = some b →
      ((l.set i b).set j a).Perm l
  | [], _, _, _, _, ha, _ => by simp at ha
  | c :: t, 0, 0, a, b, ha, hb => by
    simp only [List.getElem?_cons_zero, Option.some.injEq] at ha hb
    subst ha
    subst hb
    simp
  | c :: t, 0, k + 1, a, b, ha, hb => by
    simp only [List.getElem?_cons_zero, Option.some.injEq,
      List.getElem?_cons_succ] at ha hb
    subst ha
    simp only [List.set_cons_zero, List.set_cons_succ]
    exact cons_set_perm t k c b hb
  | c :: t, m + 1, 0, a, b, ha, hb => by
    simp only [List.getElem?_cons_zero, Option.some.injEq,
      List.getElem?_cons_succ] at ha hb
    subst hb
    simp only [List.set_cons_succ, List.set_cons_zero]
    exact cons_set_perm t m c a ha
  | c :: t, m + 1, k + 1, a, b, ha, hb => by
    simp only [List.getElem?_cons_succ] at ha hb
    simp only [List.set_cons_succ]
    exact (swap_set_perm t m k a b ha hb).cons c

theorem lswap_perm (l : List (PriorityQueueElement T)) (i j : Nat) :
    (lswap l i j).Perm l := by
  unfold lswap
  cases ha : l[i]? with
  | none => exact List.Perm.refl l
  | some a =>
    cases hb : l[j]? with
    | none => exact List.Perm.refl l
    | some b => exact swap_set_perm l i j a b ha hb

theorem bubbleUpF_perm :
    ∀ (fuel : Nat) (l : List (PriorityQueueElement T)) (idx : Nat),
      (bubbleUpF fuel l idx).Perm l
  | 0, l, _ => List.Perm.refl l
  | _ + 1, l, 0 => List.Perm.refl l
  | fuel + 1, l, idx + 1 => by
    unfold bubbleUpF
    dsimp only
    split
    · exact List.Perm.refl l
    · exact (bubbleUpF_perm fuel _ _).trans (lswap_perm l _ _)

theorem sinkDownF_perm :
    ∀ (fuel : Nat) (l : List (PriorityQueueElement T)) (idx : Nat),
      (sinkDownF fuel l idx).Perm l
  | 0, l, _ => List.Perm.refl l
  | fuel + 1, l, idx => by
    unfold sinkDownF
    cases h : sinkSwapIdx l idx with
    | none => exact List.Perm.refl l
    | some j => exact (sinkDownF_perm fuel _ _).trans (lswap_perm l _ _)

/-- A gapless `heapExceptUp` at the root is already a heap. -/
theorem heapInv_of_exceptUp_zero {T : Type} (l : List (PriorityQueueElement T))
    (hx : heapExceptUp l 0) : heapInv l := by
  intro j hj hj0
  exact hx.1 j hj hj0 (Nat.pos_iff_ne_zero.mp hj0)

/-- The `_bubbleUp` loop turns a heap-with-one-bad-edge into a heap:
`idx` units of fuel are enough because the index strictly decreases. -/
theorem bubbleUpF_heapInv {T : Type} :
    ∀ (fuel : Nat) (l : List (PriorityQueueElement T)) (idx : Nat),
      idx ≤ fuel → idx < l.length → heapExceptUp l idx →
      heapInv (bubbleUpF fuel l idx)
  | 0, l, idx, hfuel, _, hx => by
    have h0 : idx = 0 := Nat.le_zero.mp hfuel
    subst h0
    exact heapInv_of_exceptUp_zero l hx
  | _ + 1, l, 0, _, _, hx => heapInv_of_exceptUp_zero l hx
  | fuel + 1, l, idx + 1, hfuel, hlen, hx => by
    unfold bubbleUpF
    dsimp only
    by_cases hlt : prioAt l ((idx + 1 + 1) / 2 - 1) < prioAt l (idx + 1)
    · rw [if_pos hlt]
      intro j hj hj0
      by_cases hji : j = idx + 1
      · subst hji
        exact hlt.le
      · exact hx.1 j hj hj0 hji
    · rw [if_neg hlt]
      have hge : prioAt l (idx + 1) ≤ prioAt l ((idx + 1 + 1) / 2 - 1) :=
        not_lt.mp hlt
      have hplen : (idx + 1 + 1) / 2 - 1 < l.length :=
        lt_trans (by omega) hlen
      have hsw := prioAt_lswap l hlen hplen
      have hswp : prioAt (lswap l (idx + 1) ((idx + 1 + 1) / 2 - 1))
          ((idx + 1 + 1) / 2 - 1) = prioAt l (idx + 1) := by
        rw [hsw, if_pos rfl]
      have hswi : prioAt (lswap l (idx + 1) ((idx + 1 + 1) / 2 - 1)) (idx + 1) =
          prioAt l ((idx + 1 + 1) / 2 - 1) := by
        rw [hsw, if_neg (by omega), if_pos rfl]
      have hswo : ∀ x, x ≠ (idx + 1 + 1) / 2 - 1 → x ≠ idx + 1 →
          prioAt (lswap l (idx + 1) ((idx + 1 + 1) / 2 - 1)) x = prioAt l x :=
        fun x h1 h2 => by rw [hsw, if_neg h1, if_neg h2]
      apply bubbleUpF_heapInv fuel
      · omega
      · rw [lswap_length]
        exact hplen
      constructor
      · intro j hj hj0 hjp
        rw [lswap_length] at hj
        by_cases hji : j = idx + 1
        · subst hji
          rw [show (idx + 1 + 1) / 2 - 1 = (idx + 1 + 1) / 2 - 1 from rfl, hswp, hswi]
          exact hge
        · rw [hswo j hjp hji]
          by_cases hpj_p : (j + 1) / 2 - 1 = (idx + 1 + 1) / 2 - 1
          · rw [hpj_p, hswp]
            refine le_trans hge ?_
            have h1 := hx.1 j hj hj0 hji
            rwa [hpj_p] at h1
          · by_cases hpj_i : (j + 1) / 2 - 1 = idx + 1
            · rw [hpj_i, hswi]
              exact hx.2 (Nat.succ_pos idx) j hj hpj_i
            · rw [hswo _ hpj_p hpj_i]
              exact hx.1 j hj hj0 hji
      · intro hp0 c hc hcp
        rw [lswap_length] at hc
        have hpp_ne_p : ((idx + 1 + 1) / 2 - 1 + 1) / 2 - 1 ≠ (idx + 1 + 1) / 2 - 1 := by
          omega
        have hpp_ne_i : ((idx + 1 + 1) / 2 - 1 + 1) / 2 - 1 ≠ idx + 1 := by
          omega
        rw [hswo _ hpp_ne_p hpp_ne_i]
        by_cases hci : c = idx + 1
        · subst hci
          rw [hswi]
          exact hx.1 ((idx + 1 + 1) / 2 - 1) hplen hp0 (by omega)
        · have hc_ne_p : c ≠ (idx + 1 + 1) / 2 - 1 := by omega
          rw [hswo _ hc_ne_p hci]
          have h1 := hx.1 ((idx + 1 + 1) / 2 - 1) hplen hp0 (by omega)
          have h2 := hx.1 c hc (by omega) hci
          rw [hcp] at h2
          exact le_trans h1 h2

/-- When `_sinkDown` makes no swap, the element already sits below both
children. -/
theorem sinkSwapIdx_none_le {T : Type} (l : List (PriorityQueueElement T))
    (idx : Nat) (h : sinkSwapIdx l idx = none) :
    ∀ j, j < l.length → (j + 1) / 2 - 1 = idx → 0 < j →
      prioAt l idx ≤ prioAt l j := by
  unfold sinkSwapIdx at h
  dsimp only at h
  by_cases hL : 2 * idx + 1 < l.length
  · rw [if_pos hL] at h
    by_cases hs1 : prioAt l (2 * idx + 1) < prioAt l idx
    · rw [if_pos hs1] at h
      split at h <;> exact Option.noConfusion h
    · rw [if_neg hs1] at h
      intro j hj hpar hj0
      have hj12 : j = 2 * idx + 1 ∨ j = 2 * idx + 2 := by omega
      rcases hj12 with hjl | hjr
      · subst hjl
        exact not_lt.mp hs1
      · subst hjr
        by_cases hB : 2 * idx + 2 < l.length ∧
            ((none : Option Nat) = none ∨
              prioAt l (2 * idx + 2) < prioAt l (2 * idx + 1)) ∧
            prioAt l (2 * idx + 2) < prioAt l idx
        · rw [if_pos hB] at h
          exact Option.noConfusion h
        · by_contra hcon
          exact hB ⟨hj, Or.inl rfl, not_le.mp hcon⟩
  · rw [if_neg hL] at h
    intro j hj hpar hj0
    exfalso
    omega

/-- When `_sinkDown` swaps with `c`, that child exists, beats the
element, and is no worse than the other child (or the other child does
not beat the element at all). -/
theorem sinkSwapIdx_some_spec {T : Type} (l : List (PriorityQueueElement T))
    (idx c : Nat) (h : sinkSwapIdx l idx = some c) :
    (c = 2 * idx + 1 ∨ c = 2 * idx + 2) ∧ c < l.length ∧
    prioAt l c < prioAt l idx ∧
    ∀ o, o < l.length → (o = 2 * idx + 1 ∨ o = 2 * idx + 2) →
      prioAt l c ≤ prioAt l o ∨ prioAt l idx ≤ prioAt l o := by
  unfold sinkSwapIdx at h
  dsimp only at h
  by_cases hL : 2 * idx + 1 < l.length
  · rw [if_pos hL] at h
    by_cases hs1 : prioAt l (2 * idx + 1) < prioAt l idx
    · rw [if_pos hs1] at h
      by_cases hB : 2 * idx + 2 < l.length ∧
          ((some (2 * idx + 1) : Option Nat) = none ∨
            prioAt l (2 * idx + 2) < prioAt l (2 * idx + 1)) ∧
          prioAt l (2 * idx + 2) < prioAt l idx
      · rw [if_pos hB] at h
        have hc := (Option.some.inj h).symm
        subst hc
        refine ⟨Or.inr rfl, hB.1, hB.2.2, ?_⟩
        intro o ho ho12
        rcases ho12 with hol | hor
        · subst hol
          rcases hB.2.1 with hfalse | hlt2
          · exact Option.noConfusion hfalse
          · exact Or.inl hlt2.le
        · subst hor
          exact Or.inl le_rfl
      · rw [if_neg hB] at h
        have hc := (Option.some.inj h).symm
        subst hc
        refine ⟨Or.inl rfl, hL, hs1, ?_⟩
        intro o ho ho12
        rcases ho12 with hol | hor
        · subst hol
          exact Or.inl le_rfl
        · subst hor
          by_cases hCr : prioAt l (2 * idx + 2) < prioAt l idx
          · have hnb : ¬ ((some (2 * idx + 1) : Option Nat) = none ∨
                prioAt l (2 * idx + 2) < prioAt l (2 * idx + 1)) := by
              intro hb
              exact hB ⟨ho, hb, hCr⟩
            push_neg at hnb
            exact Or.inl hnb.2
          · exact Or.inr (not_lt.mp hCr)
    · rw [if_neg hs1] at h
      by_cases hB : 2 * idx + 2 < l.length ∧
          ((none : Option Nat) = none ∨
            prioAt l (2 * idx + 2) < prioAt l (2 * idx + 1)) ∧
          prioAt l (2 * idx + 2) < prioAt l idx
      · rw [if_pos hB] at h
        have hc := (Option.some.inj h).symm
        subst hc
        refine ⟨Or.inr rfl, hB.1, hB.2.2, ?_⟩
        intro o ho ho12
        rcases ho12 with hol | hor
        · subst hol
          exact Or.inr (not_lt.mp hs1)
        · subst hor
          exact Or.inl le_rfl
      · rw [if_neg hB] at h
        exact Option.noConfusion h
  · rw [if_neg hL] at h
    exact Option.noConfusion h

/-- The `_sinkDown` loop turns a heap-with-bad-edges-below-`idx` into a
heap: `length` units of fuel are enough because the index strictly
increases below the length. -/
theorem sinkDownF_heapInv {T : Type} :
    ∀ (fuel : Nat) (l : List (PriorityQueueElement T)) (idx : Nat),
      l.length ≤ fuel + idx → heapExceptDown l idx →
      heapInv (sinkDownF fuel l idx)
  | 0, l, idx, hfuel, hd => by
    show heapInv l
    intro j hj hj0
    exact hd.1 j hj hj0 (by omega)
  | fuel + 1, l, idx, hfuel, hd => by
    unfold sinkDownF
    cases hs : sinkSwapIdx l idx with
    | none =>
      intro j hj hj0
      by_cases hpar : (j + 1) / 2 - 1 = idx
      · rw [hpar]
        exact sinkSwapIdx_none_le l idx hs j hj hpar hj0
      · exact hd.1 j hj hj0 hpar
    | some c =>
      obtain ⟨hc12, hclen, hclt, hmin⟩ := sinkSwapIdx_some_spec l idx c hs
      have hidxlen : idx < l.length := by omega
      have hidx_ne_c : idx ≠ c := by omega
      have hsw := prioAt_lswap l hidxlen hclen
      have hswc : prioAt (lswap l idx c) c = prioAt l idx := by
        rw [hsw, if_pos rfl]
      have hswi : prioAt (lswap l idx c) idx = prioAt l c := by
        rw [hsw, if_neg hidx_ne_c, if_pos rfl]
      have hswo : ∀ x, x ≠ c → x ≠ idx → prioAt (lswap l idx c) x = prioAt l x :=
        fun x h1 h2 => by rw [hsw, if_neg h1, if_neg h2]
      apply sinkDownF_heapInv fuel
      · rw [lswap_length]
        omega
      constructor
      · intro j hj hj0 hjparc
        rw [lswap_length] at hj
        by_cases hjc : j = c
        · rw [hjc, show (c + 1) / 2 - 1 = idx from by omega, hswi, hswc]
          exact hclt.le
        · by_cases hji : j = idx
          · subst hji
            rw [hswi, hswo _ (by omega) (by omega)]
            exact hd.2 hj0 c hclen (by omega)
          · rw [hswo j hjc hji]
            by_cases hjpari : (j + 1) / 2 - 1 = idx
            · rw [hjpari, hswi]
              have hj12 : j = 2 * idx + 1 ∨ j = 2 * idx + 2 := by omega
              rcases hmin j hj hj12 with hm | hm
              · exact hm
              · exact le_trans hclt.le hm
            · rw [hswo _ hjparc hjpari]
              exact hd.1 j hj hj0 hjpari
      · intro hc0 gc hgc hgcparc
        rw [lswap_length] at hgc
        rw [show (c + 1) / 2 - 1 = idx from by omega, hswi,
          hswo gc (by omega) (by omega)]
        have h2 := hd.1 gc hgc (by omega) (by omega)
        rw [hgcparc] at h2
        exact h2

/-- In a heap the root priority is a lower bound for every position. -/
theorem heapInv_root_le {T : Type} (l : List (PriorityQueueElement T))
    (hinv : heapInv l) : ∀ j, j < l.length → prioAt l 0 ≤ prioAt l j := by
  intro j
  induction j using Nat.strong_induction_on with
  | _ j ih =>
    intro hj
    rcases Nat.eq_zero_or_pos j with h0 | hpos
    · subst h0
      exact le_rfl
    · exact le_trans (ih ((j + 1) / 2 - 1) (by omega) (by omega)) (hinv j hj hpos)

/-- In a heap the root priority is a lower bound for every member. -/
theorem heapInv_root_le_mem {T : Type} (l : List (PriorityQueueElement T))
    (hinv : heapInv l) (x : PriorityQueueElement T) (hx : x ∈ l) :
    prioAt l 0 ≤ x.priority := by
  obtain ⟨n, hn, hget⟩ := List.getElem_of_mem hx
  have h := heapInv_root_le l hinv n hn
  rwa [prioAt_eq_getElem l n hn, List.get_eq_getElem, hget] at h

theorem popElem_none_iff {T : Type} (q : PriorityQueue T) :
    q.popElem = none ↔ q.heap = [] := by
  unfold PriorityQueue.popElem
  cases h : q.heap with
  | nil => simp
  | cons e rest =>
    constructor
    · intro hcon
      dsimp only at hcon
      split at hcon <;> exact Option.noConfusion hcon
    · intro hcon
      exact List.noConfusion hcon

/-- Reading a non-root slot of the popped-and-refilled heap gives the
original entry. -/
theorem prioAt_popped {T : Type} (full : List (PriorityQueueElement T))
    (lastE : PriorityQueueElement T) (x : Nat) (hx0 : x ≠ 0)
    (hx : x < full.dropLast.length) :
    prioAt (full.dropLast.set 0 lastE) x = prioAt full x := by
  unfold prioAt
  rw [List.getElem?_set_ne (fun he => hx0 he.symm), List.getElem?_dropLast,
    if_pos (by simpa using hx)]

/-- `pop` on a non-empty heap returns the root (a minimal element),
removes exactly it, and leaves a heap. -/
theorem popElem_spec {T : Type} (q : PriorityQueue T)
    (e : PriorityQueueElement T) (q2 : PriorityQueue T)
    (hinv : heapInv q.heap) (h : q.popElem = some (e, q2)) :
    heapInv q2.heap ∧ q.heap.Perm (e :: q2.heap) ∧
    q2.heap.length + 1 = q.heap.length ∧ prioAt q.heap 0 = e.priority := by
  unfold PriorityQueue.popElem at h
  cases hh : q.heap with
  | nil =>
    rw [hh] at h
    exact Option.noConfusion h
  | cons e0 rest =>
    rw [hh] at h hinv
    dsimp only at h
    cases rest with
    | nil =>
      rw [if_neg (by simp)] at h
      simp only [Option.some.injEq, Prod.mk.injEq] at h
      obtain ⟨he, hq2⟩ := h
      subst he
      subst hq2
      refine ⟨?_, ?_, ?_, ?_⟩
      · intro j hj hj0
        simp at hj
      · exact List.Perm.refl _
      · rfl
      · rfl
    | cons r1 rest2 =>
      rw [if_pos (by simp)] at h
      simp only [Option.some.injEq, Prod.mk.injEq] at h
      obtain ⟨he, hq2⟩ := h
      subst he
      subst hq2
      have hset : (e0 :: r1 :: rest2).dropLast.set 0
            ((e0 :: r1 :: rest2).getLast (by simp)) =
          (e0 :: r1 :: rest2).getLast (by simp) :: (r1 :: rest2).dropLast := by
        rw [List.dropLast_cons₂]
        rfl
      have htailperm : ((e0 :: r1 :: rest2).getLast (by simp) ::
          (r1 :: rest2).dropLast).Perm (r1 :: rest2) := by
        rw [List.getLast_cons (by simp)]
        have hd := List.dropLast_append_getLast (l := r1 :: rest2) (by simp)
        refine ((List.perm_append_singleton _ _).symm).trans ?_
        rw [hd]
      refine ⟨?_, ?_, ?_, ?_⟩
      · dsimp only
        unfold sinkDown
        apply sinkDownF_heapInv
        · omega
        constructor
        · intro j hj hj0 hjpar
          rw [List.length_set] at hj
          have hjlt : j < (e0 :: r1 :: rest2).dropLast.length := hj
          rw [prioAt_popped _ _ j (by omega) hjlt,
            prioAt_popped _ _ ((j + 1) / 2 - 1) hjpar (by
              have hpar_lt : (j + 1) / 2 - 1 < j := by omega
              omega)]
          refine hinv j ?_ hj0
          simp only [List.length_dropLast, List.length_cons] at hjlt
          simp only [List.length_cons]
          omega
        · intro hzero
          exact absurd hzero (lt_irrefl 0)
      · dsimp only
        refine List.Perm.cons e0 ?_
        refine List.Perm.symm ?_
        unfold sinkDown
        refine List.Perm.trans (sinkDownF_perm _ _ _) ?_
        rw [hset]
        exact htailperm
      · dsimp only
        unfold sinkDown
        rw [sinkDownF_length, List.length_set]
        simp
      · rfl

/-- Reading below the appended slot gives the original entry. -/
theorem prioAt_append_left {T : Type} (l : List (PriorityQueueElement T))
    (el : PriorityQueueElement T) (x : Nat) (hx : x < l.length) :
    prioAt (l ++ [el]) x = prioAt l x := by
  unfold prioAt
  rw [List.getElem?_append_left hx]

/-- `insert` preserves the heap invariant and adds exactly the new
element. -/
theorem insert_spec {T : Type} (q : PriorityQueue T) (it : T) (p : Int)
    (hinv : heapInv q.heap) :
    heapInv (q.insert it p).heap ∧
    (q.insert it p).heap.Perm (q.heap ++ [⟨it, p⟩]) := by
  unfold PriorityQueue.insert
  dsimp only
  constructor
  · unfold bubbleUp
    apply bubbleUpF_heapInv
    · exact le_rfl
    · simp
    constructor
    · intro j hj hj0 hjn
      simp only [List.length_append, List.length_cons, List.length_nil] at hj hjn
      have hjq : j < q.heap.length := by omega
      rw [prioAt_append_left _ _ j hjq, prioAt_append_left _ _ _ (by omega)]
      exact hinv j hjq hj0
    · intro hpos c hc hcp
      exfalso
      simp only [List.length_append, List.length_cons, List.length_nil] at hc hcp hpos
      omega
  · exact bubbleUpF_perm _ _ _

/-- Folding `insert` over a batch starting from a heap yields a heap
holding the old and new elements together. -/
theorem foldl_insert_spec {T : Type} :
    ∀ (xs : List (T × Int)) (q : PriorityQueue T), heapInv q.heap →
      heapInv (xs.foldl (fun qq pp => qq.insert pp.1 pp.2) q).heap ∧
      (xs.foldl (fun qq pp => qq.insert pp.1 pp.2) q).heap.Perm
        (q.heap ++ xs.map (fun pp => ⟨pp.1, pp.2⟩))
  | [], q, hq => ⟨hq, by simp⟩
  | x :: xs, q, hq => by
    obtain ⟨h1, h2⟩ := insert_spec q x.1 x.2 hq
    obtain ⟨h3, h4⟩ := foldl_insert_spec xs (q.insert x.1 x.2) h1
    rw [List.foldl_cons]
    refine ⟨h3, ?_⟩
    refine h4.trans ?_
    refine (h2.append_right _).trans ?_
    simp only [List.map_cons, List.append_assoc, List.singleton_append]
    exact List.Perm.refl _

/-- Draining a heap yields its elements in non-decreasing priority
order. -/
theorem popAllF_spec {T : Type} :
    ∀ (fuel : Nat) (q : PriorityQueue T), q.heap.length ≤ fuel →
      heapInv q.heap →
      (PriorityQueue.popAllF fuel q).Perm q.heap ∧
      List.Sorted (· ≤ ·)
        ((PriorityQueue.popAllF fuel q).map (fun e => e.priority))
  | 0, q, hfl, _ => by
    have hnil : q.heap = [] := List.length_eq_zero.mp (Nat.le_zero.mp hfl)
    rw [hnil]
    exact ⟨List.Perm.refl _, List.sorted_nil⟩
  | fuel + 1, q, hfl, hq => by
    unfold PriorityQueue.popAllF
    cases hp : q.popElem with
    | none =>
      have hnil : q.heap = [] := (popElem_none_iff q).mp hp
      rw [hnil]
      exact ⟨List.Perm.refl _, List.sorted_nil⟩
    | some pr =>
      obtain ⟨e, q2⟩ := pr
      obtain ⟨h1, h2, h3, h4⟩ := popElem_spec q e q2 hq hp
      obtain ⟨h5, h6⟩ := popAllF_spec fuel q2 (by omega) h1
      constructor
      · exact (h5.cons e).trans h2.symm
      · rw [List.map_cons, List.sorted_cons]
        refine ⟨?_, h6⟩
        intro b hb
        obtain ⟨x, hx, hxe⟩ := List.mem_map.mp hb
        have hx2 : x ∈ q2.heap := h5.mem_iff.mp hx
        have hxq : x ∈ q.heap := h2.mem_iff.mpr (List.mem_cons_of_mem e hx2)
        rw [← hxe, ← h4]
        exact heapInv_root_le_mem q.heap hq x hxq

theorem prioAt_set_self {T : Type} (l : List (PriorityQueueElement T)) (i : Nat)
    (e : PriorityQueueElement T) (h : i < l.length) :
    prioAt (l.set i e) i = e.priority := by
  unfold prioAt
  rw [List.getElem?_set_self h]

theorem prioAt_set_ne {T : Type} (l : List (PriorityQueueElement T)) {i x : Nat}
    (e : PriorityQueueElement T) (h : i ≠ x) :
    prioAt (l.set i e) x = prioAt l x := by
  unfold prioAt
  rw [List.getElem?_set_ne h]

/-- C5. Inserting any batch of n (item, priority) pairs into a fresh
queue and then popping until empty returns exactly the inserted
elements, in non-decreasing order of their inserted priorities. -/
theorem heap_roundtrip_sorted {T : Type} (xs : List (T × Int)) :
    (PriorityQueue.insertAll xs).popAllElems.Perm
      (xs.map (fun p => ⟨p.1, p.2⟩)) ∧
    List.Sorted (· ≤ ·)
      ((PriorityQueue.insertAll xs).popAllElems.map (fun e => e.priority)) := by
  have hbase : heapInv (PriorityQueue.mkEmpty T).heap := by
    intro j hj hj0
    simp [PriorityQueue.mkEmpty] at hj
  obtain ⟨h1, h2⟩ := foldl_insert_spec xs (PriorityQueue.mkEmpty T) hbase
  obtain ⟨h3, h4⟩ := popAllF_spec (PriorityQueue.insertAll xs).heap.length
    (PriorityQueue.insertAll xs) le_rfl h1
  refine ⟨h3.trans (h2.trans ?_), h4⟩
  simp [PriorityQueue.mkEmpty]

/-- C6. `updatePriority` on an absent item is a no-op raising no error;
on a present item it replaces that element's priority with the new one
and re-establishes the heap ordering (sifting up on a decrease, down
otherwise); and the concrete scenario of inserting a:5, b:1, c:3 then
updating a to 0 pops in the order a, b, c. -/
theorem updatePriority_spec {T : Type} [DecidableEq T] (q : PriorityQueue T)
    (it : T) (p : Int) (hinv : heapInv q.heap) :
    (PriorityQueue.findElementIndex q.heap it = none →
      q.updatePriority it p = q) ∧
    (∀ idx, PriorityQueue.findElementIndex q.heap it = some idx →
      heapInv (q.updatePriority it p).heap ∧
      (q.updatePriority it p).heap.Perm (q.heap.set idx ⟨it, p⟩)) ∧
    PriorityQueue.popAllItems
        ((PriorityQueue.insertAll [("a", 5), ("b", 1), ("c", 3)]).updatePriority
          "a" 0) = ["a", "b", "c"] := by
  refine ⟨?_, ?_, by decide⟩
  · intro hnone
    unfold PriorityQueue.updatePriority
    rw [hnone]
  · intro idx hidx
    have hidx2 := hidx
    unfold PriorityQueue.findElementIndex at hidx2
    have hspec := List.findIdx?_eq_some_iff_getElem.mp hidx2
    obtain ⟨hlen, hpred, hrest⟩ := hspec
    have hitem : q.heap[idx].item = it := of_decide_eq_true hpred
    unfold PriorityQueue.updatePriority
    rw [hidx]
    dsimp only
    rw [List.getElem?_eq_getElem hlen]
    dsimp only
    rw [hitem]
    by_cases hplt : p < q.heap[idx].priority
    · rw [if_pos hplt]
      constructor
      · unfold bubbleUp
        apply bubbleUpF_heapInv
        · exact le_rfl
        · simpa using hlen
        constructor
        · intro j hj hj0 hjn
          rw [List.length_set] at hj
          by_cases hparj : (j + 1) / 2 - 1 = idx
          · rw [hparj, prioAt_set_self _ _ _ hlen, prioAt_set_ne _ _ (by omega)]
            have hold := hinv j hj hj0
            rw [hparj] at hold
            refine le_trans ?_ hold
            rw [prioAt_eq_getElem _ _ hlen, List.get_eq_getElem]
            exact hplt.le
          · rw [prioAt_set_ne _ _ (by omega), prioAt_set_ne _ _ (by omega)]
            exact hinv j hj hj0
        · intro hpos c hc hcp
          rw [List.length_set] at hc
          rw [prioAt_set_ne _ _ (by omega), prioAt_set_ne _ _ (by omega)]
          have h1 := hinv idx hlen hpos
          have h2 := hinv c hc (by omega)
          rw [hcp] at h2
          exact le_trans h1 h2
      · exact bubbleUpF_perm _ _ _
    · rw [if_neg hplt]
      have hple : q.heap[idx].priority ≤ p := not_lt.mp hplt
      constructor
      · unfold sinkDown
        apply sinkDownF_heapInv
        · omega
        constructor
        · intro j hj hj0 hjpar
          rw [List.length_set] at hj
          by_cases hji : j = idx
          · subst hji
            rw [prioAt_set_self _ _ _ hlen, prioAt_set_ne _ _ (by omega)]
            have hold := hinv j hj hj0
            refine le_trans hold ?_
            rw [prioAt_eq_getElem _ _ hlen, List.get_eq_getElem]
            exact hple
          · rw [prioAt_set_ne _ _ (by omega),
              prioAt_set_ne _ _ (fun he => hji he.symm)]
            exact hinv j hj hj0
        · intro hpos c hc hcp
          rw [List.length_set] at hc
          rw [prioAt_set_ne _ _ (by omega), prioAt_set_ne _ _ (by omega)]
          have h1 := hinv idx hlen hpos
          have h2 := hinv c hc (by omega)
          rw [hcp] at h2
          exact le_trans h1 h2
      · exact sinkDownF_perm _ _ _

/-- Witness for C6: the spec's concrete scenario, obtained by applying
the general theorem to the concretely built queue. -/
theorem updatePriority_spec_witness :
    PriorityQueue.popAllItems
        ((PriorityQueue.insertAll [("a", 5), ("b", 1), ("c", 3)]).updatePriority
          "a" 0) = ["a", "b", "c"] :=
  (updatePriority_spec (PriorityQueue.insertAll [("a", 5), ("b", 1), ("c", 3)])
    "a" 0 (by decide)).2.2

end HeapLemmas

/-! ## Theorems about the modelled solver -/

section SolverLemmas

variable {C V : Type} [DecidableEq C]

/-- After a resolving step, the popped cell is resolved to the picked
candidate. -/
theorem propagate_upd_self (tagOf : V → String)
    (compat : V → Fin 8 → List String) (adj : C → C → Option (Fin 8))
    (hirr : ∀ x, adj x x = none) (c : C) (v : V) (cells : C → CellState V) :
    propagate tagOf compat adj c v
      (fun x => if x = c then .resolved v else cells x) c = .resolved v := by
  unfold propagate
  rw [hirr c]
  simp

/-- Away from the popped cell, propagation never creates or changes a
resolution. -/
theorem propagate_upd_resolved (tagOf : V → String)
    (compat : V → Fin 8 → List String) (adj : C → C → Option (Fin 8))
    (c : C) (v : V) (cells : C → CellState V) (x : C) (hx : x ≠ c) (w : V) :
    propagate tagOf compat adj c v
        (fun y => if y = c then .resolved v else cells y) x = .resolved w ↔
      cells x = .resolved w := by
  unfold propagate
  dsimp only
  rw [if_neg hx]
  cases hadj : adj c x <;> cases hcx : cells x <;> simp

/-- Away from the popped cell, a superposition surviving propagation is a
sublist of the previous candidates, and when the cell faces the resolved
one every survivor lies in the resolved variant's facing list. -/
theorem propagate_upd_superposition (tagOf : V → String)
    (compat : V → Fin 8 → List String) (adj : C → C → Option (Fin 8))
    (c : C) (v : V) (cells : C → CellState V) (x : C) (hx : x ≠ c)
    (cands2 : List V)
    (h : propagate tagOf compat adj c v
      (fun y => if y = c then .resolved v else cells y) x =
        .superposition cands2) :
    (∃ cands, cells x = .superposition cands ∧ ∀ w ∈ cands2, w ∈ cands) ∧
    (∀ d, adj c x = some d →
      ∀ w ∈ cands2, (compat v d).contains (tagOf w) = true) := by
  unfold propagate at h
  dsimp only at h
  rw [if_neg hx] at h
  cases hadj : adj c x with
  | none =>
    rw [hadj] at h
    cases hcx : cells x with
    | resolved w2 =>
      rw [hcx] at h
      dsimp only at h
      exact CellState.noConfusion h
    | superposition cands =>
      rw [hcx] at h
      dsimp only at h
      have hfil := CellState.superposition.inj h
      subst hfil
      refine ⟨⟨cands, rfl, fun w hw => hw⟩, ?_⟩
      intro d hd
      exact Option.noConfusion hd
  | some d =>
    rw [hadj] at h
    cases hcx : cells x with
    | resolved w2 =>
      rw [hcx] at h
      dsimp only at h
      exact CellState.noConfusion h
    | superposition cands =>
      rw [hcx] at h
      dsimp only at h
      have hfil := CellState.superposition.inj h
      refine ⟨⟨cands, rfl, ?_⟩, ?_⟩
      · intro w hw
        rw [← hfil] at hw
        exact List.mem_of_mem_filter hw
      · intro d2 hd2
        have hdd := Option.some.inj hd2
        subst hdd
        intro w hw
        rw [← hfil] at hw
        have hp := List.of_mem_filter hw
        exact hp

/-- One solver step preserves the compatibility invariant. -/
theorem solverStep_inv (tagOf : V → String)
    (compat : V → Fin 8 → List String) (adj : C → C → Option (Fin 8))
    (pick : C → List V → V) (cells cells2 : C → CellState V) (c : C)
    (hirr : ∀ x, adj x x = none)
    (hpick : ∀ cc (v0 : V) rest, pick cc (v0 :: rest) ∈ v0 :: rest)
    (hinv : SolverInv tagOf compat adj cells)
    (h : solverStep tagOf compat adj pick cells c = some cells2) :
    SolverInv tagOf compat adj cells2 := by
  unfold solverStep at h
  cases hcc : cells c with
  | resolved v =>
    rw [hcc] at h
    dsimp only at h
    have h2 := Option.some.inj h
    subst h2
    exact hinv
  | superposition cands =>
    cases cands with
    | nil =>
      rw [hcc] at h
      exact Option.noConfusion h
    | cons v0 rest =>
      rw [hcc] at h
      dsimp only at h
      have h2 := Option.some.inj h
      subst h2
      have hself := propagate_upd_self tagOf compat adj hirr c
        (pick c (v0 :: rest)) cells
      constructor
      · intro a b da db u v hab hba ha hb
        by_cases hac : a = c
        · subst hac
          have hu : u = pick a (v0 :: rest) :=
            CellState.resolved.inj (hself.symm.trans ha).symm
          have hbc : b ≠ a := by
            intro hba2
            subst hba2
            rw [hirr b] at hab
            exact Option.noConfusion hab
          have hbres := (propagate_upd_resolved tagOf compat adj a
            (pick a (v0 :: rest)) cells b hbc v).mp hb
          have hrs := hinv.2 b a db v (v0 :: rest) hba hbres hcc
          right
          rw [hu]
          exact hrs (pick a (v0 :: rest)) (hpick a v0 rest)
        · by_cases hbc : b = c
          · subst hbc
            have hv : v = pick b (v0 :: rest) :=
              CellState.resolved.inj (hself.symm.trans hb).symm
            have hares := (propagate_upd_resolved tagOf compat adj b
              (pick b (v0 :: rest)) cells a hac u).mp ha
            have hrs := hinv.2 a b da u (v0 :: rest) hab hares hcc
            left
            rw [hv]
            exact hrs (pick b (v0 :: rest)) (hpick b v0 rest)
          · have hares := (propagate_upd_resolved tagOf compat adj c
              (pick c (v0 :: rest)) cells a hac u).mp ha
            have hbres := (propagate_upd_resolved tagOf compat adj c
              (pick c (v0 :: rest)) cells b hbc v).mp hb
            exact hinv.1 a b da db u v hab hba hares hbres
      · intro a b da u cands2 hab ha hb
        have hbc : b ≠ c := by
          intro hbc2
          subst hbc2
          rw [hself] at hb
          exact CellState.noConfusion hb
        obtain ⟨⟨cands0, hc0, hsub⟩, hprop⟩ :=
          propagate_upd_superposition tagOf compat adj c
            (pick c (v0 :: rest)) cells b hbc cands2 hb
        by_cases hac : a = c
        · subst hac
          have hu : u = pick a (v0 :: rest) :=
            CellState.resolved.inj (hself.symm.trans ha).symm
          rw [hu]
          exact hprop da hab
        · have hares := (propagate_upd_resolved tagOf compat adj c
            (pick c (v0 :: rest)) cells a hac u).mp ha
          intro w hw
          exact hinv.2 a b da u cands0 hab hares hc0 w (hsub w hw)

/-- The solver loop preserves the compatibility invariant. -/
theorem solverRun_inv (tagOf : V → String)
    (compat : V → Fin 8 → List String) (adj : C → C → Option (Fin 8))
    (pick : C → List V → V)
    (hirr : ∀ x, adj x x = none)
    (hpick : ∀ cc (v0 : V) rest, pick cc (v0 :: rest) ∈ v0 :: rest) :
    ∀ (order : List C) (cells final : C → CellState V),
      SolverInv tagOf compat adj cells →
      solverRun tagOf compat adj pick order cells = some final →
      SolverInv tagOf compat adj final
  | [], cells, final, hinv, h => by
    have h2 := Option.some.inj h
    subst h2
    exact hinv
  | c :: order, cells, final, hinv, h => by
    unfold solverRun at h
    cases hs : solverStep tagOf compat adj pick cells c with
    | none =>
      rw [hs] at h
      exact Option.noConfusion h
    | some cells2 =>
      rw [hs] at h
      exact solverRun_inv tagOf compat adj pick hirr hpick order cells2 final
        (solverStep_inv tagOf compat adj pick cells cells2 c hirr hpick hinv hs) h

/-- Reading back a `Collapsed` outcome of the fill operation. -/
theorem solverFill_collapsed (tagOf : V → String)
    (compat : V → Fin 8 → List String) (adj : C → C → Option (Fin 8))
    (pick : C → List V → V) (order : List C) (init final : C → CellState V)
    (h : solverFill tagOf compat adj pick order init = .Collapsed final) :
    solverRun tagOf compat adj pick order init = some final ∧
    order.all (fun c => isResolved (final c)) = true := by
  unfold solverFill at h
  cases hr : solverRun tagOf compat adj pick order init with
  | none =>
    rw [hr] at h
    exact SolveResult.noConfusion h
  | some f =>
    rw [hr] at h
    dsimp only at h
    split at h
    · have h2 := SolveResult.Collapsed.inj h
      subst h2
      exact ⟨rfl, by assumption⟩
    · exact SolveResult.noConfusion h

end SolverLemmas

/-- C3 (amended). Modelled from the spec: the collapse loop is absent
from the source (`HexGrid.Fill` is a random-assignment stub), so the
solver of §4.4 is modelled with an abstract cell set, an irreflexive
adjacency relation, any heap pop order covering all cells, and any picker
choosing among the remaining candidates. Whenever the fill terminates
`Collapsed`, every cell is resolved, and every pair of adjacent resolved
cells is compatible in at least one of its two facing directions — the
later-resolved cell always appears in the earlier one's list, but the
spec's propagation (intersecting only with the resolved cell's own list)
does not force the converse direction. -/
theorem solver_collapse_completeness {C V : Type} [DecidableEq C]
    (tagOf : V → String) (compat : V → Fin 8 → List String)
    (adj : C → C → Option (Fin 8)) (pick : C → List V → V)
    (order : List C) (init final : C → CellState V)
    (hirr : ∀ x, adj x x = none)
    (hpick : ∀ cc (v0 : V) rest, pick cc (v0 :: rest) ∈ v0 :: rest)
    (horder : ∀ c : C, c ∈ order)
    (hinit : ∀ c, ∃ cands, init c = .superposition cands)
    (hfill : solverFill tagOf compat adj pick order init = .Collapsed final) :
    (∀ c, ∃ v, final c = .resolved v) ∧
    (∀ a b da db u v, adj a b = some da → adj b a = some db →
      final a = .resolved u → final b = .resolved v →
      (compat u da).contains (tagOf v) = true ∨
      (compat v db).contains (tagOf u) = true) := by
  obtain ⟨hrun, hall⟩ :=
    solverFill_collapsed tagOf compat adj pick order init final hfill
  have hinv0 : SolverInv tagOf compat adj init := by
    constructor
    · intro a b da db u v hab hba ha hb
      obtain ⟨cands, hc⟩ := hinit a
      rw [ha] at hc
      exact CellState.noConfusion hc
    · intro a b da u cands hab ha hb
      obtain ⟨cands0, hc⟩ := hinit a
      rw [ha] at hc
      exact CellState.noConfusion hc
  have hinvF := solverRun_inv tagOf compat adj pick hirr hpick order init final
    hinv0 hrun
  constructor
  · intro c
    have hres := List.all_eq_true.mp hall c (horder c)
    cases hfc : final c with
    | resolved v => exact ⟨v, rfl⟩
    | superposition cands =>
      rw [hfc] at hres
      exact absurd hres (by simp [isResolved])
  · exact hinvF.1

/-- C3 (counterexample to the two-sided claim). On the concrete two-cell
instance the modelled fill terminates `Collapsed` with both cells
resolved and mutually adjacent, the earlier cell lists the later one, but
the later cell's list for the facing direction does not contain the
earlier cell's tag — so it is false that, in a `Collapsed` outcome,
*each* cell of an adjacent resolved pair appears in the *other*'s facing
compatibility list. -/
theorem collapse_two_sided_fails :
    solverFill exTag exCompat exAdj exPick [0, 1] exInit =
      SolveResult.Collapsed
        (finalOf (solverFill exTag exCompat exAdj exPick [0, 1] exInit) exDflt) ∧
    finalOf (solverFill exTag exCompat exAdj exPick [0, 1] exInit) exDflt 0 =
      CellState.resolved 0 ∧
    finalOf (solverFill exTag exCompat exAdj exPick [0, 1] exInit) exDflt 1 =
      CellState.resolved 1 ∧
    exAdj 0 1 = some 0 ∧ exAdj 1 0 = some 3 ∧
    (exCompat 0 0).contains (exTag 1) = true ∧
    (exCompat 1 3).contains (exTag 0) = false := by
  refine ⟨rfl, ?_, ?_, ?_, ?_, ?_, ?_⟩ <;> decide

/-- Witness for C3 (amended) on the concrete two-cell instance: the
theorem applies and yields both a resolution for cell 0 and the one-sided
compatibility of the resolved pair. -/
theorem solver_collapse_completeness_witness :
    (∃ v, finalOf (solverFill exTag exCompat exAdj exPick [0, 1] exInit)
      exDflt 0 = CellState.resolved v) ∧
    ((exCompat 0 0).contains (exTag 1) = true ∨
      (exCompat 1 3).contains (exTag 0) = true) := by
  have hmain := solver_collapse_completeness exTag exCompat exAdj exPick
    [0, 1] exInit
    (finalOf (solverFill exTag exCompat exAdj exPick [0, 1] exInit) exDflt)
    (by decide)
    (by
      intro cc v0 rest
      simp [exPick])
    (by decide)
    (by
      intro c
      fin_cases c
      · exact ⟨[0], rfl⟩
      · exact ⟨[1], rfl⟩)
    rfl
  refine ⟨hmain.1 0, ?_⟩
  exact hmain.2 0 1 0 3 0 1 (by decide) (by decide) (by decide) (by decide)
